import Mathlib

/-!
# goroute: a configuration-driven HTTP edge router

A shallow embedding of `main.go` / `structs.go`: the per-route reverse-proxy
handler registered by `StartRouter`, the route table and its dispatch, the
TLS label table and the environment interpolation of `main`.

A Go `string` is an immutable byte sequence; it is embedded as a list of
symbols (`GoString`), one symbol per byte, so `len` is `List.length` and
`s[lo:hi]` is `take`/`drop`.
-/

namespace Goroute

/-- A Go string: a finite sequence of bytes, one list element per byte. -/
abbrev GoString := List Char

/-! ## Library functions used by the source -/

/-- Go `strings.Split(s, sep)` for a one-byte separator: the pieces of `s`
between the occurrences of `sep`; always at least one piece. -/
def Split : GoString → Char → List GoString
  | [], _ => [[]]
  | c :: cs, sep =>
    if c = sep then [] :: Split cs sep
    else
      match Split cs sep with
      | [] => [[c]]
      | x :: xs => (c :: x) :: xs

/-- Go slice expression `s[lo:hi]`; `none` stands for the run-time panic
"slice bounds out of range". -/
def slice (s : GoString) (lo hi : Nat) : Option GoString :=
  if lo ≤ hi ∧ hi ≤ s.length then some ((s.take hi).drop lo) else none

/-- The bytes allowed in a header field name (an RFC 7230 token), as tested by
`validHeaderFieldByte` of `net/textproto`. -/
def validHeaderFieldByte (c : Char) : Bool :=
  c.isAlphanum || "!#$%&'*+-.^_`|~".toList.contains c

/-- The letter-case pass of `canonicalMIMEHeaderKey`: upper case at the start
and after each `-`, lower case elsewhere. -/
def canonicalCase : Bool → GoString → GoString
  | _, [] => []
  | upper, c :: cs =>
    let c1 := if upper then c.toUpper else c.toLower
    c1 :: canonicalCase (c1 = '-') cs

/-- Go `textproto.CanonicalMIMEHeaderKey`: a key holding a space or an invalid
header byte is returned unchanged, any other key is put in canonical case. -/
def CanonicalMIMEHeaderKey (s : GoString) : GoString :=
  if s.all validHeaderFieldByte then canonicalCase true s else s

/-- Go `http.Header` (`map[string][]string`): the values stored under each key;
a key that is absent holds no value. -/
abbrev Header := GoString → List GoString

/-- Go `Header.Add`: appends `value` to the values of the canonical key. -/
def Header.Add (h : Header) (key value : GoString) : Header :=
  fun k => if k = CanonicalMIMEHeaderKey key then h k ++ [value] else h k

/-- Go `Header.Set`: replaces the values of the canonical key by `[value]`. -/
def Header.Set (h : Header) (key value : GoString) : Header :=
  fun k => if k = CanonicalMIMEHeaderKey key then [value] else h k

/-- Go `Header.Get`: the first value of the canonical key, `""` when none. -/
def Header.Get (h : Header) (key : GoString) : GoString :=
  match h (CanonicalMIMEHeaderKey key) with
  | [] => []
  | v :: _ => v

/-- Go `Header.Del`: removes the values of the canonical key. -/
def Header.Del (h : Header) (key : GoString) : Header :=
  fun k => if k = CanonicalMIMEHeaderKey key then [] else h k

/-- The fields of Go `url.URL` that the router reads or writes. -/
structure URL where
  Scheme : GoString
  Host : GoString
  Path : GoString
  RawQuery : GoString

/-- The fields of Go `http.Request` that the router reads or writes. -/
structure Request where
  RequestURI : GoString
  URL : URL
  Header : Header
  Host : GoString

/-- What the `net/http` server does with the `Host` line of an incoming
origin-form request before any handler runs: "the Host header is promoted to
the Request.Host field and removed from the Header map". -/
def promoteHost (req : Request) : Request :=
  { req with Host := req.Header.Get "Host".toList, Header := req.Header.Del "Host".toList }

/-! ## Data model (`structs.go`) -/

/-- Route - struct for routing details; `Headers` lists the entries of the Go
map in the order in which `range` happens to visit them. -/
structure Route where
  Path : GoString
  Headers : List (GoString × GoString)
  Target : GoString
  TargetType : GoString
  CacheExpiry : Int

/-- Security - struct for security details. -/
structure Security where
  Enabled : Bool
  CertPath : GoString
  KeyPath : GoString
  MinTLSVersion : GoString
  MaxTLSVersion : GoString

/-- Cache - struct for caching details. -/
structure Cache where
  Enabled : Bool
  EndPoint : GoString

/-- Config - root struct for config. -/
structure Config where
  Host : GoString
  Port : GoString
  Security : Security
  Cache : Cache
  Routes : List Route

/-! ## The URL-route handler of `StartRouter` -/

/-- What one call of a registered handler does. -/
inductive Outcome where
  /-- A run-time panic (index or slice out of range, nil dereference). -/
  | panic
  /-- Answered by `http.NotFound(w, req)`; carries the request as it then is. -/
  | notFound (req : Request)
  /-- Handed to `proxy.ServeHTTP(w, req)`, with the proxy built for `target`. -/
  | proxied (req : Request) (target : URL)
  /-- Handed to the static file handler of a DIR route. -/
  | static (route : Route) (cached : Bool) (req : Request)
  /-- Answered by the router itself with 301 and the cleaned path as location. -/
  | movedPermanently (path : GoString)

/-- The loop `for k, v := range headers { req.Header.Add(k, v) }`. -/
def addHeaders (h : Header) (headers : List (GoString × GoString)) : Header :=
  headers.foldl (fun acc kv => acc.Add kv.1 kv.2) h

/-- The closure passed to `HandlerFunc` for a route with `TargetType == "URL"`
(main.go lines 74-92). `parse` is `url.Parse`, `none` being its error case
(the source drops the error and keeps the nil pointer). -/
def urlHandler (parse : GoString → Option URL) (route : Route) (req : Request) : Outcome :=
  match (Split req.RequestURI '/')[1]?, (Split route.Path '/')[1]? with
  | some a, some b =>
    if a ≠ b then Outcome.notFound req
    else
      let header := addHeaders req.Header route.Headers
      match parse route.Target with
      | none => Outcome.panic
      | some url =>
        match slice req.URL.Path route.Path.length req.URL.Path.length with
        | none => Outcome.panic
        | some path =>
          Outcome.proxied
            { RequestURI := req.RequestURI
              URL := { req.URL with Host := url.Host, Scheme := url.Scheme, Path := path }
              Header := header.Set "X-Forwarded-Host".toList (header.Get "Host".toList)
              Host := url.Host }
            url
  | _, _ => Outcome.panic

/-- The first path segment in the words of the specification: the text between
the first and the second `/` (up to the end when there is no second one);
`none` when there is no `/` at all. -/
def firstSegment (s : GoString) : Option GoString :=
  match s.dropWhile (fun c => c ≠ '/') with
  | [] => none
  | _ :: rest => some (rest.takeWhile (fun c => c ≠ '/'))

/-! ## Route table and dispatch (`StartRouter`, lines 64-103) -/

/-- The handler that `StartRouter` attaches to a registered route. -/
inductive Handler where
  /-- The reverse-proxy closure of a route with `TargetType == "URL"`. -/
  | url (route : Route)
  /-- `http.StripPrefix(route.Path, FileServerWithCache(...))`. -/
  | fileServerWithCache (route : Route)
  /-- `http.StripPrefix(route.Path, http.FileServer(...))`. -/
  | fileServer (route : Route)

/-- The body of the loop `for _, route := range routes`: one
`r.PathPrefix(route.Path)` registration appended to the router `r`. -/
def registerRoute (config : Config) (r : List (GoString × Handler)) (route : Route) :
    List (GoString × Handler) :=
  if route.TargetType = "URL".toList then r ++ [(route.Path, Handler.url route)]
  else if config.Cache.Enabled then r ++ [(route.Path, Handler.fileServerWithCache route)]
  else r ++ [(route.Path, Handler.fileServer route)]

/-- The handler that the loop body attaches to `route`, read off `registerRoute`. -/
def routeHandler (config : Config) (route : Route) : Handler :=
  if route.TargetType = "URL".toList then Handler.url route
  else if config.Cache.Enabled then Handler.fileServerWithCache route
  else Handler.fileServer route

/-- The router `r` as `StartRouter` leaves it after the registration loop: the
registered (path template, handler) pairs in registration order. -/
def routeTable (config : Config) : List (GoString × Handler) :=
  config.Routes.foldl (registerRoute config) []

/-! ### The router (`github.com/gorilla/mux`) -/

/-- The pieces of a mux path template: text outside braces, and the content of
an outermost `{...}` pair. -/
inductive TemplatePart where
  | raw (s : GoString)
  | variable (content : GoString)

/-- The scan of mux `braceIndices`, cutting the template at its outermost brace
pairs: `level` is the nesting depth, `acc` the text gathered since the last
cut; `none` is the error "unbalanced braces". -/
def braceParts : Nat → GoString → List TemplatePart → GoString → Option (List TemplatePart)
  | 0, acc, parts, [] => some (parts ++ [TemplatePart.raw acc])
  | _ + 1, _, _, [] => none
  | 0, acc, parts, c :: cs =>
    if c = '{' then braceParts 1 [] (parts ++ [TemplatePart.raw acc]) cs
    else if c = '}' then none
    else braceParts 0 (acc ++ [c]) parts cs
  | level + 1, acc, parts, c :: cs =>
    if c = '{' then braceParts (level + 2) (acc ++ [c]) parts cs
    else if c = '}' then
      if level = 0 then braceParts 0 [] (parts ++ [TemplatePart.variable acc]) cs
      else braceParts level (acc ++ [c]) parts cs
    else braceParts (level + 1) (acc ++ [c]) parts cs

/-- The name of a template variable: `strings.SplitN(content, ":", 2)[0]`. -/
def variableName (content : GoString) : GoString :=
  content.takeWhile (fun c => c ≠ ':')

/-- The pattern a template variable brings along, if any: the second element
of `strings.SplitN(content, ":", 2)`. -/
def variablePattern (content : GoString) : Option GoString :=
  match content.dropWhile (fun c => c ≠ ':') with
  | [] => none
  | _ :: patt => some patt

/-- A variable that mux refuses: "missing name or pattern". -/
def TemplatePart.isMalformed : TemplatePart → Bool
  | TemplatePart.raw _ => false
  | TemplatePart.variable content =>
    decide (variableName content = []) || decide (variablePattern content = some [])

/-- A variable with a pattern of its own, `{name:pattern}`. -/
def TemplatePart.hasOwnPattern : TemplatePart → Bool
  | TemplatePart.raw _ => false
  | TemplatePart.variable content => (variablePattern content).isSome

/-- What `PathPrefix(tpl)` makes of a template. -/
inductive TemplateKind where
  /-- The route carries an error and never matches: a template that does not
  begin with `/`, unbalanced braces, a variable without name or pattern. -/
  | refused
  /-- Text and variables with the default pattern `[^/]+` only. -/
  | plain (parts : List TemplatePart)
  /-- Some variable has a pattern of its own. -/
  | custom

/-- The checks of mux `addRegexpMatcher` and `newRouteRegexp` on the template of
a `PathPrefix` route. -/
def compileTemplate (tpl : GoString) : TemplateKind :=
  if tpl ≠ [] ∧ tpl.head? ≠ some '/' then TemplateKind.refused
  else
    match braceParts 0 [] [] tpl with
    | none => TemplateKind.refused
    | some parts =>
      if parts.any TemplatePart.isMalformed then TemplateKind.refused
      else if parts.any TemplatePart.hasOwnPattern then TemplateKind.custom
      else TemplateKind.plain parts

/-- Whether the regexp `^raw0([^/]+)raw1([^/]+)...` that mux builds from the
parts matches at the start of `s`: the raw texts are quoted, hence literal, and
a variable takes one or more bytes other than `/`. -/
def matchParts : List TemplatePart → GoString → Bool
  | [], _ => true
  | TemplatePart.raw r :: ps, s => decide (r <+: s) && matchParts ps (s.drop r.length)
  | TemplatePart.variable _ :: ps, s =>
    (List.range (s.takeWhile (fun c => c ≠ '/')).length).any
      (fun i => matchParts ps (s.drop (i + 1)))

/-- Whether the `PathPrefix(tpl)` route matches the URL path. `customMatch` is
the regexp engine's verdict for a template that has a variable with a pattern
of its own; building a route from such a template may also fail at start-up,
which lies outside this development. -/
def templateMatches (customMatch : GoString → GoString → Bool) (tpl path : GoString) : Bool :=
  match compileTemplate tpl with
  | TemplateKind.refused => false
  | TemplateKind.plain parts => matchParts parts path
  | TemplateKind.custom => customMatch tpl path

/-- The route matching of `mux.Router`: the routes are tried in registration
order and the first whose template matches the URL path wins. -/
def routerMatch (customMatch : GoString → GoString → Bool) :
    List (GoString × Handler) → GoString → Option Handler
  | [], _ => none
  | (tpl, h) :: rest, path =>
    if templateMatches customMatch tpl path then some h
    else routerMatch customMatch rest path

/-- The path elements that Go `path.Clean` keeps: empty and `.` elements are
dropped, `..` drops the element before it. -/
def cleanElements : List GoString → List GoString → List GoString
  | out, [] => out
  | out, e :: es =>
    if e = [] ∨ e = ['.'] then cleanElements out es
    else if e = ['.', '.'] then cleanElements out.dropLast es
    else cleanElements (out ++ [e]) es

/-- Go `path.Clean` on a rooted path (one that begins with `/`), the only kind
mux passes to it. -/
def cleanRooted (p : GoString) : GoString :=
  '/' :: List.intercalate ['/'] (cleanElements [] (Split p '/'))

/-- The function `cleanPath` of mux: the canonical form of a URL path, with a
trailing slash kept. -/
def cleanPath (p : GoString) : GoString :=
  if p = [] then ['/']
  else
    let p1 := if p.head? = some '/' then p else '/' :: p
    let np := cleanRooted p1
    if p1.getLast? = some '/' ∧ np ≠ ['/'] then np ++ ['/'] else np

/-- Running a registered handler on a request. The static handlers of DIR
routes are recorded, not unfolded. -/
def runHandler (parse : GoString → Option URL) (h : Handler) (req : Request) : Outcome :=
  match h with
  | Handler.url route => urlHandler parse route req
  | Handler.fileServerWithCache route => Outcome.static route true req
  | Handler.fileServer route => Outcome.static route false req

/-- The second half of mux `Router.ServeHTTP`: the matched route's handler
runs; when no route matches, the default `http.NotFoundHandler()` answers. -/
def dispatch (customMatch : GoString → GoString → Bool) (parse : GoString → Option URL)
    (config : Config) (req : Request) : Outcome :=
  match routerMatch customMatch (routeTable config) req.URL.Path with
  | none => Outcome.notFound req
  | some h => runHandler parse h req

/-- The router serving one request (mux `Router.ServeHTTP`, `SkipClean` unset):
a URL path that is not in its clean form is answered 301, any other request is
dispatched. -/
def ServeHTTP (customMatch : GoString → GoString → Bool) (parse : GoString → Option URL)
    (config : Config) (req : Request) : Outcome :=
  if cleanPath req.URL.Path ≠ req.URL.Path then
    Outcome.movedPermanently (cleanPath req.URL.Path)
  else dispatch customMatch parse config req

/-! ## TLS versions (lines 23-27 and 105-110) -/

/-- Go `tls.VersionTLS10`. -/
def VersionTLS10 : Nat := 0x0301

/-- Go `tls.VersionTLS11`. -/
def VersionTLS11 : Nat := 0x0302

/-- Go `tls.VersionTLS12`. -/
def VersionTLS12 : Nat := 0x0303

/-- Indexing a Go `map[string]uint16`: the value stored under `key`, and the
zero value when the key is absent. -/
def mapIndex : List (GoString × Nat) → GoString → Nat
  | [], _ => 0
  | (k, v) :: rest, key => if key = k then v else mapIndex rest key

/-- The map literal `tLSVersion` of main.go. -/
def tLSVersion : List (GoString × Nat) :=
  [("TLS 1.0".toList, VersionTLS10),
   ("TLS 1.1".toList, VersionTLS11),
   ("TLS 1.2".toList, VersionTLS12)]

/-- The fields of `tls.Config` that `StartRouter` sets. -/
structure TLSConfig where
  MinVersion : Nat
  MaxVersion : Nat
  InsecureSkipVerify : Bool

/-- The `tls.Config` built by `StartRouter` when security is enabled. -/
def tlsConfig (config : Config) : TLSConfig :=
  { MinVersion := mapIndex tLSVersion config.Security.MinTLSVersion
    MaxVersion := mapIndex tLSVersion config.Security.MaxTLSVersion
    InsecureSkipVerify := true }

/-! ## Environment interpolation (`main`, lines 36-50) -/

/-- The scan of `strings.Replace` for a non-empty `old`: `skip` counts the
bytes of a matched occurrence that are still to be passed over. -/
def replaceFrom (old new : GoString) : Nat → GoString → GoString
  | _, [] => []
  | skip + 1, _ :: cs => replaceFrom old new skip cs
  | 0, c :: cs =>
    if old <+: c :: cs then new ++ replaceFrom old new (old.length - 1) cs
    else c :: replaceFrom old new 0 cs

/-- Go `strings.Replace(s, old, new, -1)`: every non-overlapping occurrence of
`old`, found from the left, is replaced by `new`; an empty `old` matches before
every symbol and at the end. -/
def Replace (s old new : GoString) : GoString :=
  if old = [] then new ++ s.flatMap (fun c => c :: new) else replaceFrom old new 0 s

/-- Go `os.Getenv` over the process environment `environ` (name, value): the
value of the variable, empty when it is not set. -/
def Getenv : List (GoString × GoString) → GoString → GoString
  | [], _ => []
  | (name, value) :: rest, key => if key = name then value else Getenv rest key

/-- The loop `for k, v := range env` of `main`; `env` lists the entries of the
mapping in the order in which `range` visits them. -/
def interpolate (environ env : List (GoString × GoString)) (jsonContent : GoString) :
    GoString :=
  env.foldl (fun acc kv => Replace acc ('$' :: (kv.1 ++ ['$'])) (Getenv environ kv.2)) jsonContent

/-- The text before the first `?` of a request URI: for an origin-form URI
without percent-escapes this is the `URL.Path` that the server parses out. -/
def originFormPath (uri : GoString) : GoString :=
  uri.takeWhile (fun c => c ≠ '?')

/-- The request that a forwarding outcome hands to the proxy. -/
def Outcome.forwarded : Outcome → Option Request
  | Outcome.proxied req _ => some req
  | _ => none

/-! ## Concrete configurations and requests -/

/-- The parsed form of the target `http://u:9`. -/
def upstream : URL := ⟨"http".toList, "u:9".toList, [], []⟩

/-- The parsed form of the target `http://u1`. -/
def upstream1 : URL := ⟨"http".toList, "u1".toList, [], []⟩

/-- The parsed form of the target `http://u2`. -/
def upstream2 : URL := ⟨"http".toList, "u2".toList, [], []⟩

/-- The results of `url.Parse` on the three targets used below. -/
def parseTargets (target : GoString) : Option URL :=
  if target = "http://u:9".toList then some upstream
  else if target = "http://u1".toList then some upstream1
  else if target = "http://u2".toList then some upstream2
  else none

/-- Route `/api` to `http://u:9` with the injected header `X-Tag: a`. -/
def routeApi : Route :=
  ⟨"/api".toList, [("X-Tag".toList, "a".toList)], "http://u:9".toList, "URL".toList, 0⟩

/-- Route `/api` to `http://u:9` whose injected header is `X-Forwarded-Host`. -/
def routeApiForwardedHost : Route :=
  ⟨"/api".toList, [("X-Forwarded-Host".toList, "public.example".toList)],
    "http://u:9".toList, "URL".toList, 0⟩

/-- The request `GET /api/v1/x` with the header line `Host: edge`, as read off
the wire. -/
def wireApiV1X : Request :=
  ⟨"/api/v1/x".toList, ⟨[], [], "/api/v1/x".toList, []⟩,
    fun k => if k = "Host".toList then ["edge".toList] else [], []⟩

/-- The request `GET /api?x=1` with `Host: edge`, as the server hands it to the
router: the query is split off the path. -/
def requestApiQuery : Request :=
  ⟨"/api?x=1".toList, ⟨[], [], "/api".toList, "x=1".toList⟩, fun _ => [], "edge".toList⟩

/-- The request `GET /apix/y` with `Host: edge`, as the server hands it to the
router. -/
def requestApixY : Request :=
  ⟨"/apix/y".toList, ⟨[], [], "/apix/y".toList, []⟩, fun _ => [], "edge".toList⟩

/-- The regexp engine as far as a configuration without patterns of its own
needs it: never consulted. -/
def noCustomPatterns : GoString → GoString → Bool := fun _ _ => false

/-- Route `/a/{id}` proxying to the upstream `u1`. -/
def routeAId : Route := ⟨"/a/\x7bid\x7d".toList, [], "http://u1".toList, "URL".toList, 0⟩

/-- Route `/a{` proxying to the upstream `u1`. -/
def routeOpenBrace : Route := ⟨"/a\x7b".toList, [], "http://u1".toList, "URL".toList, 0⟩

/-- The request `GET /a/5/zzzz`, as the server hands it to the router. -/
def requestA5Z : Request :=
  ⟨"/a/5/zzzz".toList, ⟨[], [], "/a/5/zzzz".toList, []⟩, fun _ => [], "edge".toList⟩

/-- The request `GET /a{/x`, as the server hands it to the router. -/
def requestOpenBrace : Request :=
  ⟨"/a\x7b/x".toList, ⟨[], [], "/a\x7b/x".toList, []⟩, fun _ => [], "edge".toList⟩

/-- The request `GET /api//x`, as the server hands it to the router. -/
def requestApiDoubleSlash : Request :=
  ⟨"/api//x".toList, ⟨[], [], "/api//x".toList, []⟩, fun _ => [], "edge".toList⟩

/-- The request `GET /a/bc`, as the server hands it to the router. -/
def requestABC : Request :=
  ⟨"/a/bc".toList, ⟨[], [], "/a/bc".toList, []⟩, fun _ => [], "edge".toList⟩

/-! ## Config texts as literal text and placeholders -/

/-- A piece of a config text: literal text, or a placeholder `$k$`. -/
inductive Piece where
  | text (s : GoString)
  | placeholder (k : GoString)

/-- The characters a piece is written with, the `$` delimiters apart. -/
def Piece.body : Piece → GoString
  | Piece.text s => s
  | Piece.placeholder k => k

/-- The text of one piece. -/
def Piece.render : Piece → GoString
  | Piece.text s => s
  | Piece.placeholder k => '$' :: (k ++ ['$'])

/-- The config text made of the pieces, in order. -/
def render : List Piece → GoString
  | [] => []
  | p :: ps => p.render ++ render ps

/-- Indexing the env mapping (`map[string]string`) with presence. -/
def lookupKey : List (GoString × GoString) → GoString → Option GoString
  | [], _ => none
  | (k, v) :: rest, key => if key = k then some v else lookupKey rest key

/-- One piece after interpolation: a placeholder whose key is mapped becomes
the current value of the mapped variable, anything else stays. -/
def fill (environ env : List (GoString × GoString)) : Piece → Piece
  | Piece.text s => Piece.text s
  | Piece.placeholder k =>
    match lookupKey env k with
    | some v => Piece.text (Getenv environ v)
    | none => Piece.placeholder k

/-- Replacing the placeholder of one key by text. -/
def fillKey (k new : GoString) : Piece → Piece
  | Piece.text s => Piece.text s
  | Piece.placeholder k1 => if k1 = k then Piece.text new else Piece.placeholder k1

/-- Whether `s` holds a character that occurs in none of the `keys`. -/
def hasSeparator (keys : List GoString) (s : GoString) : Bool :=
  s.any (fun c => keys.all (fun k => decide (c ∉ k)))

/-- Whether any two placeholders of the pieces have, somewhere between them,
a character that occurs in none of the `keys`; `ok` tells whether such a
character has been seen since the last placeholder. -/
def separated (keys : List GoString) : Bool → List Piece → Bool
  | _, [] => true
  | ok, Piece.text s :: ps => separated keys (ok || hasSeparator keys s) ps
  | ok, Piece.placeholder _ :: ps => ok && separated keys false ps

/-- A process environment in which the variable `VA` holds the text `$B$`
and `VB` holds `x`. -/
def environNested : List (GoString × GoString) :=
  [("VA".toList, "$B$".toList), ("VB".toList, "x".toList)]

/-- A process environment with `MEMCACHE_ADDR=10.0.0.1:11211`, and `PORT` unset. -/
def environCache : List (GoString × GoString) :=
  [("MEMCACHE_ADDR".toList, "10.0.0.1:11211".toList)]

/-- The env mapping with the entries MC -> MEMCACHE_ADDR and P -> PORT. -/
def envCache : List (GoString × GoString) :=
  [("MC".toList, "MEMCACHE_ADDR".toList), ("P".toList, "PORT".toList)]

/-- The config text `"port":"$P$","endPoint":"$MC$"` cut into its pieces. -/
def piecesCache : List Piece :=
  [Piece.text "\"port\":\"".toList, Piece.placeholder "P".toList,
   Piece.text "\",\"endPoint\":\"".toList, Piece.placeholder "MC".toList,
   Piece.text "\"".toList]

/-- Route `/a/b` proxying to the upstream `u1`. -/
def routeAB : Route := ⟨"/a/b".toList, [], "http://u1".toList, "URL".toList, 0⟩

/-- Route `/a` proxying to the upstream `u2`. -/
def routeA : Route := ⟨"/a".toList, [], "http://u2".toList, "URL".toList, 0⟩

/-- A configuration with the given routes, plaintext and without cache. -/
def configOf (routes : List Route) : Config :=
  ⟨[], "8080".toList, ⟨false, [], [], [], []⟩, ⟨false, []⟩, routes⟩

/-- The request `GET /a/b/x` as the server hands it to the router. -/
def requestABX : Request :=
  ⟨"/a/b/x".toList, ⟨[], [], "/a/b/x".toList, []⟩, fun _ => [], "edge".toList⟩

/-! # Theorems -/

/-! ## Lemmas on the library functions -/

theorem Split_ne_nil (s : GoString) (sep : Char) : Split s sep ≠ [] := by
  induction s with
  | nil => simp [Split]
  | cons c cs ih =>
    unfold Split
    split
    · simp
    · split <;> simp

theorem Split_head (s : GoString) (sep : Char) :
    (Split s sep)[0]? = some (s.takeWhile (fun c => c ≠ sep)) := by
  induction s with
  | nil => simp [Split]
  | cons c cs ih =>
    unfold Split
    by_cases h : c = sep
    · simp [h]
    · simp only [h, if_false]
      cases hs : Split cs sep with
      | nil => exact absurd hs (Split_ne_nil cs sep)
      | cons x xs =>
        rw [hs] at ih
        simp at ih
        simp [h, ih]

theorem Split_index_one (s : GoString) :
    (Split s '/')[1]? = firstSegment s := by
  induction s with
  | nil => simp [Split, firstSegment]
  | cons c cs ih =>
    unfold Split
    by_cases h : c = '/'
    · simp only [h, if_true]
      simp [firstSegment, List.dropWhile, Split_head]
    · simp only [h, if_false]
      have hf : firstSegment (c :: cs) = firstSegment cs := by
        simp [firstSegment, List.dropWhile, h]
      rw [hf, ← ih]
      cases hs : Split cs '/' with
      | nil => exact absurd hs (Split_ne_nil cs '/')
      | cons x xs => simp

theorem slice_suffix (p s : GoString) :
    slice (p ++ s) p.length (p ++ s).length = some s := by
  unfold slice
  rw [if_pos ⟨by simp, le_refl _⟩, List.take_length, List.drop_left]

theorem urlHandler_of_segments_ne (parse : GoString → Option URL) (route : Route)
    (req : Request) (a b : GoString)
    (ha : firstSegment req.RequestURI = some a) (hb : firstSegment route.Path = some b)
    (hab : a ≠ b) :
    urlHandler parse route req = Outcome.notFound req := by
  unfold urlHandler
  rw [Split_index_one, Split_index_one, ha, hb]
  simp [hab]

/-- C1: for a URL-type route and any request, when the first path segment of
the request URI (the text between its first and second `/`) differs from the
first path segment of the route's path, the route's handler answers 404 with
the request left exactly as it came, nothing is handed to the proxy, and so
the router answers 404 for every request it dispatches to that handler. -/
theorem urlHandler_notFound_of_first_segment_differs
    (parse : GoString → Option URL) (config : Config) (route : Route) (req : Request)
    (a b : GoString)
    (ha : firstSegment req.RequestURI = some a) (hb : firstSegment route.Path = some b)
    (hab : a ≠ b) :
    urlHandler parse route req = Outcome.notFound req ∧
    (urlHandler parse route req).forwarded = none ∧
    (∀ customMatch : GoString → GoString → Bool,
      routerMatch customMatch (routeTable config) req.URL.Path = some (Handler.url route) →
        dispatch customMatch parse config req = Outcome.notFound req ∧
        (cleanPath req.URL.Path = req.URL.Path →
          ServeHTTP customMatch parse config req = Outcome.notFound req)) := by
  have h := urlHandler_of_segments_ne parse route req a b ha hb hab
  refine ⟨h, by rw [h]; rfl, fun customMatch hm => ?_⟩
  have hd : dispatch customMatch parse config req = Outcome.notFound req := by
    simp only [dispatch, hm, runHandler, h]
  refine ⟨hd, fun hclean => ?_⟩
  unfold ServeHTTP
  rw [if_neg (not_not.mpr hclean), hd]

/-- C1 at the request `GET /apix/y` on the route `/api`: 404. -/
theorem urlHandler_notFound_of_first_segment_differs_witness :
    urlHandler parseTargets routeApi requestApixY = Outcome.notFound requestApixY ∧
    ServeHTTP noCustomPatterns parseTargets (configOf [routeApi]) requestApixY
      = Outcome.notFound requestApixY :=
  have h := urlHandler_notFound_of_first_segment_differs parseTargets (configOf [routeApi])
    routeApi requestApixY "apix".toList "api".toList (by decide) (by decide) (by decide)
  ⟨h.1, (h.2.2 noCustomPatterns rfl).2 (by decide)⟩

/-- C2: for a URL-type route with path P whose target parses to T, and a
request that passes the first-segment guard and whose URL path is P ++ s, the
request handed to the reverse proxy (built for T) has URL scheme T.scheme, URL
host T.host, URL path s, and Host T.host; the query and the request URI are
untouched; when the request path is exactly P the forwarded path is empty. -/
theorem urlHandler_rewrites_request
    (parse : GoString → Option URL) (route : Route) (req : Request) (T : URL)
    (s a : GoString)
    (hT : parse route.Target = some T)
    (ha : firstSegment req.RequestURI = some a) (hb : firstSegment route.Path = some a)
    (hpath : req.URL.Path = route.Path ++ s) :
    ∃ out : Request, urlHandler parse route req = Outcome.proxied out T ∧
      out.URL.Scheme = T.Scheme ∧ out.URL.Host = T.Host ∧ out.URL.Path = s ∧
      out.Host = T.Host ∧ out.URL.RawQuery = req.URL.RawQuery ∧
      out.RequestURI = req.RequestURI ∧ (req.URL.Path = route.Path → out.URL.Path = []) := by
  unfold urlHandler
  rw [Split_index_one, Split_index_one, ha, hb]
  simp only [ne_eq, not_true_eq_false, if_false, hT, hpath, slice_suffix]
  refine ⟨_, rfl, rfl, rfl, rfl, rfl, rfl, rfl, ?_⟩
  intro h
  simpa using h

/-- C2 at `GET /api/v1/x` on the route `/api` to `http://u:9`: the proxy gets
the path `/v1/x`, scheme `http` and host `u:9`. -/
theorem urlHandler_rewrites_request_witness :
    ∃ out : Request,
      urlHandler (fun _ => some ⟨"http".toList, "u:9".toList, [], []⟩)
        ⟨"/api".toList, [("X-Tag".toList, "a".toList)], "http://u:9".toList, "URL".toList, 0⟩
        ⟨"/api/v1/x".toList, ⟨[], [], "/api/v1/x".toList, []⟩, fun _ => [], "edge".toList⟩
        = Outcome.proxied out ⟨"http".toList, "u:9".toList, [], []⟩ ∧
      out.URL.Scheme = "http".toList ∧ out.URL.Host = "u:9".toList ∧
      out.URL.Path = "/v1/x".toList ∧ out.Host = "u:9".toList := by
  obtain ⟨out, h1, h2, h3, h4, h5, _⟩ :=
    urlHandler_rewrites_request (fun _ => some ⟨"http".toList, "u:9".toList, [], []⟩)
      ⟨"/api".toList, [("X-Tag".toList, "a".toList)], "http://u:9".toList, "URL".toList, 0⟩
      ⟨"/api/v1/x".toList, ⟨[], [], "/api/v1/x".toList, []⟩, fun _ => [], "edge".toList⟩
      ⟨"http".toList, "u:9".toList, [], []⟩ "/v1/x".toList "api".toList rfl
      (by decide) (by decide) (by decide)
  exact ⟨out, h1, h2, h3, h4, h5⟩

theorem firstSegment_slash (r : GoString) :
    firstSegment ('/' :: r) = some (r.takeWhile (fun c => c ≠ '/')) := by
  simp [firstSegment, List.dropWhile]

theorem slice_of_leading (p path : GoString) (h : p <+: path) :
    ∃ s, path = p ++ s ∧ slice path p.length path.length = some s := by
  obtain ⟨s, rfl⟩ := h
  exact ⟨s, rfl, slice_suffix p s⟩

/-- C7: for a route whose path begins with `/` and whose target parses, and a
request whose URI begins with `/` and whose URL path starts with the route's
path, both `/`-splits have an element of index 1, the slice
`path[len(routePath):len(path)]` is within bounds, and the handler does not
panic. -/
theorem urlHandler_no_panic
    (parse : GoString → Option URL) (route : Route) (req : Request) (T : URL)
    (p r : GoString)
    (hP : route.Path = '/' :: p) (hT : parse route.Target = some T)
    (hU : req.RequestURI = '/' :: r) (hpre : route.Path <+: req.URL.Path) :
    (1 < (Split req.RequestURI '/').length ∧ 1 < (Split route.Path '/').length ∧
      route.Path.length ≤ req.URL.Path.length ∧
      (slice req.URL.Path route.Path.length req.URL.Path.length).isSome) ∧
    urlHandler parse route req ≠ Outcome.panic := by
  have h1 : (Split req.RequestURI '/')[1]? = some (r.takeWhile (fun c => c ≠ '/')) := by
    rw [Split_index_one, hU, firstSegment_slash]
  have h2 : (Split route.Path '/')[1]? = some (p.takeWhile (fun c => c ≠ '/')) := by
    rw [Split_index_one, hP, firstSegment_slash]
  obtain ⟨s, hs, hsl⟩ := slice_of_leading _ _ hpre
  refine ⟨⟨?_, ?_, hpre.length_le, by simp [hsl]⟩, ?_⟩
  · by_contra hlt
    rw [List.getElem?_eq_none (by omega)] at h1
    exact absurd h1 (by simp)
  · by_contra hlt
    rw [List.getElem?_eq_none (by omega)] at h2
    exact absurd h2 (by simp)
  · unfold urlHandler
    rw [h1, h2]
    simp only [hT, hsl]
    split <;> simp

/-- C7 at `GET /apix/y?q=1` on the route `/api`. -/
theorem urlHandler_no_panic_witness :
    urlHandler (fun _ => some ⟨"http".toList, "u:9".toList, [], []⟩)
      ⟨"/api".toList, [], "http://u:9".toList, "URL".toList, 0⟩
      ⟨"/apix/y?q=1".toList, ⟨[], [], "/apix/y".toList, "q=1".toList⟩, fun _ => [], []⟩
      ≠ Outcome.panic :=
  (urlHandler_no_panic (fun _ => some ⟨"http".toList, "u:9".toList, [], []⟩)
      ⟨"/api".toList, [], "http://u:9".toList, "URL".toList, 0⟩
      ⟨"/apix/y?q=1".toList, ⟨[], [], "/apix/y".toList, "q=1".toList⟩, fun _ => [], []⟩
      ⟨"http".toList, "u:9".toList, [], []⟩ "api".toList "apix/y?q=1".toList
      rfl rfl rfl (by decide)).2

/-- C9: the table `tLSVersion` sends the labels "TLS 1.0", "TLS 1.1" and
"TLS 1.2" to 0x0301, 0x0302 and 0x0303, every other label to the zero value 0,
and `MinVersion` and `MaxVersion` of the TLS configuration are the table's
values at the two configured labels. -/
theorem tLSVersion_labels (config : Config) (label : GoString)
    (h0 : label ≠ "TLS 1.0".toList) (h1 : label ≠ "TLS 1.1".toList)
    (h2 : label ≠ "TLS 1.2".toList) :
    (mapIndex tLSVersion "TLS 1.0".toList = 0x0301 ∧
      mapIndex tLSVersion "TLS 1.1".toList = 0x0302 ∧
      mapIndex tLSVersion "TLS 1.2".toList = 0x0303) ∧
    mapIndex tLSVersion label = 0 ∧
    (tlsConfig config).MinVersion = mapIndex tLSVersion config.Security.MinTLSVersion ∧
    (tlsConfig config).MaxVersion = mapIndex tLSVersion config.Security.MaxTLSVersion := by
  refine ⟨⟨by decide, by decide, by decide⟩, ?_, rfl, rfl⟩
  simp only [tLSVersion, mapIndex, if_neg h0, if_neg h1, if_neg h2]

/-- C9 at the labels "TLS 1.3" and "": both give 0. -/
theorem tLSVersion_labels_witness :
    mapIndex tLSVersion "TLS 1.3".toList = 0 ∧
    (tlsConfig ⟨[], [], ⟨true, [], [], [], "TLS 1.3".toList⟩, ⟨false, []⟩, []⟩).MinVersion = 0 :=
  ⟨(tLSVersion_labels ⟨[], [], ⟨true, [], [], [], "TLS 1.3".toList⟩, ⟨false, []⟩, []⟩
      "TLS 1.3".toList (by decide) (by decide) (by decide)).2.1,
   (tLSVersion_labels ⟨[], [], ⟨true, [], [], [], "TLS 1.3".toList⟩, ⟨false, []⟩, []⟩
      [] (by decide) (by decide) (by decide)).2.1⟩

theorem registerRoute_eq (config : Config) (r : List (GoString × Handler)) (route : Route) :
    registerRoute config r route = r ++ [(route.Path, routeHandler config route)] := by
  unfold registerRoute routeHandler
  split
  · rfl
  · split <;> rfl

theorem foldl_registerRoute (config : Config) (routes : List Route)
    (acc : List (GoString × Handler)) :
    routes.foldl (registerRoute config) acc =
      acc ++ routes.map (fun route => (route.Path, routeHandler config route)) := by
  induction routes generalizing acc with
  | nil => simp
  | cons route rest ih => simp [ih, registerRoute_eq]

theorem routeTable_eq_map (config : Config) :
    routeTable config =
      config.Routes.map (fun route => (route.Path, routeHandler config route)) := by
  simp [routeTable, foldl_registerRoute]

theorem braceParts_plain (tpl acc : GoString) (parts : List TemplatePart)
    (h1 : '{' ∉ tpl) (h2 : '}' ∉ tpl) :
    braceParts 0 acc parts tpl = some (parts ++ [TemplatePart.raw (acc ++ tpl)]) := by
  induction tpl generalizing acc with
  | nil => simp [braceParts]
  | cons c cs ih =>
    have hc1 : c ≠ '{' := fun e => h1 (by simp [e])
    have hc2 : c ≠ '}' := fun e => h2 (by simp [e])
    rw [braceParts, if_neg hc1, if_neg hc2,
      ih _ (fun e => h1 (List.mem_cons_of_mem _ e)) (fun e => h2 (List.mem_cons_of_mem _ e))]
    simp

theorem templateMatches_literal (customMatch : GoString → GoString → Bool)
    (tpl t : GoString) (h1 : '{' ∉ tpl) (h2 : '}' ∉ tpl) :
    templateMatches customMatch tpl ('/' :: t) = decide (tpl <+: '/' :: t) := by
  unfold templateMatches compileTemplate
  by_cases hbad : tpl ≠ [] ∧ tpl.head? ≠ some '/'
  · rw [if_pos hbad]
    obtain ⟨hne, hhead⟩ := hbad
    cases tpl with
    | nil => exact absurd rfl hne
    | cons c cs =>
      have hc : c ≠ '/' := fun e => hhead (by simp [e])
      simp [List.cons_prefix_cons, hc]
  · rw [if_neg hbad, braceParts_plain tpl [] [] h1 h2]
    simp [TemplatePart.isMalformed, TemplatePart.hasOwnPattern, matchParts]

theorem cleanPath_head (p : GoString) : ∃ t, cleanPath p = '/' :: t := by
  unfold cleanPath
  split
  · exact ⟨[], rfl⟩
  · dsimp only
    generalize (if p.head? = some '/' then p else '/' :: p) = p1
    unfold cleanRooted
    split
    · exact ⟨_, rfl⟩
    · exact ⟨_, rfl⟩

theorem cleanPath_rooted (p : GoString) (h : cleanPath p = p) : ∃ t, p = '/' :: t := by
  obtain ⟨t, ht⟩ := cleanPath_head p
  exact ⟨t, by rw [← h, ht]⟩

theorem routerMatch_first (customMatch : GoString → GoString → Bool) (config : Config)
    (t : GoString) (pre post : List Route) (r : Route)
    (hbrace : ∀ q ∈ pre ++ r :: post, '{' ∉ q.Path ∧ '}' ∉ q.Path)
    (hpre : ∀ q ∈ pre, ¬ q.Path <+: '/' :: t) (hr : r.Path <+: '/' :: t) :
    routerMatch customMatch
      ((pre ++ r :: post).map (fun route => (route.Path, routeHandler config route)))
      ('/' :: t) = some (routeHandler config r) := by
  induction pre with
  | nil =>
    have hb := hbrace r (by simp)
    simp only [List.nil_append, List.map_cons, routerMatch]
    rw [templateMatches_literal customMatch r.Path t hb.1 hb.2, if_pos (by simpa using hr)]
  | cons q qs ih =>
    have hq : ¬ q.Path <+: '/' :: t := hpre q (List.mem_cons_self _ _)
    have hb := hbrace q (by simp)
    simp only [List.cons_append, List.map_cons, routerMatch]
    rw [templateMatches_literal customMatch q.Path t hb.1 hb.2, if_neg (by simpa using hq)]
    exact ih (fun x hx => hbrace x (List.mem_cons_of_mem _ hx))
      (fun x hx => hpre x (List.mem_cons_of_mem _ hx))

theorem routerMatch_none (customMatch : GoString → GoString → Bool) (config : Config)
    (t : GoString) (routes : List Route)
    (hbrace : ∀ q ∈ routes, '{' ∉ q.Path ∧ '}' ∉ q.Path)
    (h : ∀ q ∈ routes, ¬ q.Path <+: '/' :: t) :
    routerMatch customMatch
      (routes.map (fun route => (route.Path, routeHandler config route))) ('/' :: t)
      = none := by
  induction routes with
  | nil => simp [routerMatch]
  | cons q qs ih =>
    have hq : ¬ q.Path <+: '/' :: t := h q (List.mem_cons_self _ _)
    have hb := hbrace q (List.mem_cons_self _ _)
    simp only [List.map_cons, routerMatch]
    rw [templateMatches_literal customMatch q.Path t hb.1 hb.2, if_neg (by simpa using hq)]
    exact ih (fun x hx => hbrace x (List.mem_cons_of_mem _ hx))
      (fun x hx => h x (List.mem_cons_of_mem _ hx))

/-- C5 fails as stated. The route `/a/{id}` is no leading part of `/a/5/zzzz`,
yet the router runs its handler, which forwards the request with path `zz`;
the route `/a{` is a leading part of the clean path `/a{/x`, yet the router
answers 404; and `/api//x`, of which the route `/api` is a leading part, is
answered 301 to `/api/x` without any handler being run. -/
theorem dispatch_not_literal :
    ((∀ r ∈ (configOf [routeAId]).Routes, ¬ r.Path <+: requestA5Z.URL.Path) ∧
      cleanPath requestA5Z.URL.Path = requestA5Z.URL.Path ∧
      ∃ out : Request,
        ServeHTTP noCustomPatterns parseTargets (configOf [routeAId]) requestA5Z
          = Outcome.proxied out upstream1 ∧ out.URL.Path = "zz".toList) ∧
    (routeOpenBrace.Path <+: requestOpenBrace.URL.Path ∧
      cleanPath requestOpenBrace.URL.Path = requestOpenBrace.URL.Path ∧
      ServeHTTP noCustomPatterns parseTargets (configOf [routeOpenBrace]) requestOpenBrace
        = Outcome.notFound requestOpenBrace) ∧
    (routeApi.Path <+: requestApiDoubleSlash.URL.Path ∧
      ServeHTTP noCustomPatterns parseTargets (configOf [routeApi]) requestApiDoubleSlash
        = Outcome.movedPermanently "/api/x".toList) :=
  ⟨⟨by decide, by decide, _, rfl, rfl⟩, ⟨by decide, by decide, rfl⟩, ⟨by decide, rfl⟩⟩

/-- C5, amended: for every ordered list of configured routes whose paths hold
no `{` and no `}`, and every request whose URL path is in the clean form the
router works on, the router built by `StartRouter` runs the handler of the
first route, in configuration order, whose path is a leading part of the
request's URL path (the reverse-proxy closure for a URL route, the static
handler for any other), and answers 404 when no route's path is one. -/
theorem dispatch_first_matching_route
    (customMatch : GoString → GoString → Bool) (parse : GoString → Option URL)
    (config : Config) (req : Request)
    (hbrace : ∀ q ∈ config.Routes, '{' ∉ q.Path ∧ '}' ∉ q.Path)
    (hclean : cleanPath req.URL.Path = req.URL.Path) :
    (∀ (pre post : List Route) (r : Route), config.Routes = pre ++ r :: post →
      (∀ q ∈ pre, ¬ q.Path <+: req.URL.Path) → r.Path <+: req.URL.Path →
        routerMatch customMatch (routeTable config) req.URL.Path
          = some (routeHandler config r) ∧
        (r.TargetType = "URL".toList →
          ServeHTTP customMatch parse config req = urlHandler parse r req) ∧
        (r.TargetType ≠ "URL".toList →
          ServeHTTP customMatch parse config req
            = Outcome.static r config.Cache.Enabled req)) ∧
    ((∀ q ∈ config.Routes, ¬ q.Path <+: req.URL.Path) →
        routerMatch customMatch (routeTable config) req.URL.Path = none ∧
        ServeHTTP customMatch parse config req = Outcome.notFound req) := by
  obtain ⟨t, ht⟩ := cleanPath_rooted _ hclean
  have hserve : ServeHTTP customMatch parse config req
      = dispatch customMatch parse config req := by
    unfold ServeHTTP
    rw [if_neg (not_not.mpr hclean)]
  constructor
  · intro pre post r hroutes hpre hr
    have hm : routerMatch customMatch (routeTable config) req.URL.Path
        = some (routeHandler config r) := by
      rw [routeTable_eq_map, hroutes, ht]
      rw [hroutes] at hbrace
      rw [ht] at hpre hr
      exact routerMatch_first customMatch config t pre post r hbrace hpre hr
    refine ⟨hm, fun hurl => ?_, fun hdir => ?_⟩
    · rw [hserve]
      simp only [dispatch, hm, routeHandler, if_pos hurl, runHandler]
    · rw [hserve]
      simp only [dispatch, hm, routeHandler, if_neg hdir]
      cases hc : config.Cache.Enabled <;> simp [runHandler]
  · intro hnone
    have hm : routerMatch customMatch (routeTable config) req.URL.Path = none := by
      rw [routeTable_eq_map, ht]
      rw [ht] at hnone
      exact routerMatch_none customMatch config t _ hbrace hnone
    exact ⟨hm, by rw [hserve]; simp only [dispatch, hm]⟩

/-- C5, amended, on the routes `/a/b` and `/a`: `/a/b/x` is handled by the
proxy closure of `/a/b` when that route comes first and by that of `/a` when
the two are swapped; `/b/x` matches nothing and is answered 404. -/
theorem dispatch_first_matching_route_witness :
    (ServeHTTP noCustomPatterns parseTargets (configOf [routeAB, routeA]) requestABX
        = urlHandler parseTargets routeAB requestABX ∧
     ServeHTTP noCustomPatterns parseTargets (configOf [routeA, routeAB]) requestABX
        = urlHandler parseTargets routeA requestABX) ∧
    ServeHTTP noCustomPatterns parseTargets (configOf [routeAB])
        ⟨"/b/x".toList, ⟨[], [], "/b/x".toList, []⟩, fun _ => [], []⟩
      = Outcome.notFound ⟨"/b/x".toList, ⟨[], [], "/b/x".toList, []⟩, fun _ => [], []⟩ :=
  ⟨⟨((dispatch_first_matching_route noCustomPatterns parseTargets
        (configOf [routeAB, routeA]) requestABX (by decide) (by decide)).1
        [] [routeA] routeAB rfl (by simp) (by decide)).2.1 rfl,
    ((dispatch_first_matching_route noCustomPatterns parseTargets
        (configOf [routeA, routeAB]) requestABX (by decide) (by decide)).1
        [] [routeAB] routeA rfl (by simp) (by decide)).2.1 rfl⟩,
   ((dispatch_first_matching_route noCustomPatterns parseTargets (configOf [routeAB])
        ⟨"/b/x".toList, ⟨[], [], "/b/x".toList, []⟩, fun _ => [], []⟩
        (by decide) (by decide)).2 (by decide)).2⟩

theorem canonical_xfh :
    CanonicalMIMEHeaderKey "X-Forwarded-Host".toList = "X-Forwarded-Host".toList := by
  decide

theorem canonical_host : CanonicalMIMEHeaderKey "Host".toList = "Host".toList := by
  decide

theorem mem_Add_of_mem (h : Header) (key value k v : GoString) (hv : v ∈ h k) :
    v ∈ (h.Add key value) k := by
  unfold Header.Add
  split
  · exact List.mem_append_left _ hv
  · exact hv

theorem mem_addHeaders_of_mem (headers : List (GoString × GoString)) (h : Header)
    (k v : GoString) (hv : v ∈ h k) : v ∈ (addHeaders h headers) k := by
  induction headers generalizing h with
  | nil => exact hv
  | cons kv rest ih =>
    simp only [addHeaders, List.foldl_cons]
    exact ih _ (mem_Add_of_mem h kv.1 kv.2 k v hv)

theorem mem_addHeaders (headers : List (GoString × GoString)) (h : Header)
    (name value : GoString) (hmem : (name, value) ∈ headers) :
    value ∈ (addHeaders h headers) (CanonicalMIMEHeaderKey name) := by
  induction headers generalizing h with
  | nil => cases hmem
  | cons kv rest ih =>
    simp only [addHeaders, List.foldl_cons]
    rcases List.mem_cons.mp hmem with heq | hin
    · apply mem_addHeaders_of_mem
      subst heq
      simp [Header.Add]
    · exact ih _ hin

/-- What a forwarded request looks like: every field of the request handed to
the proxy, read off the handler. -/
theorem urlHandler_proxied (parse : GoString → Option URL) (route : Route) (req out : Request)
    (T : URL) (h : urlHandler parse route req = Outcome.proxied out T) :
    parse route.Target = some T ∧
    (∃ a, firstSegment req.RequestURI = some a ∧ firstSegment route.Path = some a) ∧
    slice req.URL.Path route.Path.length req.URL.Path.length = some out.URL.Path ∧
    out.Header = (addHeaders req.Header route.Headers).Set "X-Forwarded-Host".toList
      ((addHeaders req.Header route.Headers).Get "Host".toList) ∧
    out.Host = T.Host ∧ out.URL.Host = T.Host ∧ out.URL.Scheme = T.Scheme := by
  unfold urlHandler at h
  rw [Split_index_one, Split_index_one] at h
  cases ha : firstSegment req.RequestURI with
  | none => simp [ha] at h
  | some a =>
    cases hb : firstSegment route.Path with
    | none => simp [ha, hb] at h
    | some b =>
      cases hp : parse route.Target with
      | none =>
        simp only [ha, hb, hp] at h
        split at h <;> simp at h
      | some url =>
        cases hs : slice req.URL.Path route.Path.length req.URL.Path.length with
        | none =>
          simp only [ha, hb, hp, hs] at h
          split at h <;> simp at h
        | some path =>
          simp only [ha, hb, hp, hs] at h
          by_cases hab : a = b
          · simp only [hab, ne_eq, not_true_eq_false, if_false, Outcome.proxied.injEq] at h
            obtain ⟨h1, h2⟩ := h
            subst h1 h2
            exact ⟨rfl, ⟨b, by rw [hab], rfl⟩, rfl, rfl, rfl, rfl, rfl⟩
          · simp [hab] at h

/-- C3, amended: for a URL-type route and a request it forwards, every
(name, value) entry of the route's headers whose name does not canonicalise to
`X-Forwarded-Host` has its value among the values that the request handed to
the proxy carries under the canonical form of the name, whatever headers the
inbound request carried. -/
theorem urlHandler_injects_route_headers
    (parse : GoString → Option URL) (route : Route) (req out : Request) (T : URL)
    (name value : GoString)
    (h : urlHandler parse route req = Outcome.proxied out T)
    (hmem : (name, value) ∈ route.Headers)
    (hx : CanonicalMIMEHeaderKey name ≠ "X-Forwarded-Host".toList) :
    value ∈ out.Header (CanonicalMIMEHeaderKey name) := by
  obtain ⟨_, _, _, hh, _⟩ := urlHandler_proxied parse route req out T h
  rw [hh]
  unfold Header.Set
  rw [canonical_xfh, if_neg hx]
  exact mem_addHeaders route.Headers req.Header name value hmem

/-- C3 fails as stated: a route whose headers hold
`X-Forwarded-Host: public.example` forwards `GET /api/v1/x` with
`X-Forwarded-Host` set to the single empty value, and `public.example` under
no header at all. -/
theorem route_header_x_forwarded_host_overwritten :
    ∃ out : Request,
      urlHandler parseTargets routeApiForwardedHost (promoteHost wireApiV1X)
        = Outcome.proxied out upstream ∧
      ("X-Forwarded-Host".toList, "public.example".toList) ∈ routeApiForwardedHost.Headers ∧
      out.Header "X-Forwarded-Host".toList = [[]] ∧
      ∀ key, "public.example".toList ∉ out.Header key := by
  refine ⟨_, rfl, by decide, rfl, ?_⟩
  intro key
  by_cases hk : key = "X-Forwarded-Host".toList
  · subst hk
    decide
  · show _ ∉ Header.Set (Header.Add (Header.Del wireApiV1X.Header "Host".toList)
        "X-Forwarded-Host".toList "public.example".toList) "X-Forwarded-Host".toList _ key
    unfold Header.Set Header.Add
    rw [canonical_xfh, if_neg hk, if_neg hk]
    unfold Header.Del
    split
    · simp
    · show _ ∉ (if key = "Host".toList then ["edge".toList] else [])
      split
      · decide
      · simp

/-- C3, amended, at the header `X-Tag: a` of the route `/api`. -/
theorem urlHandler_injects_route_headers_witness :
    ∃ out : Request,
      urlHandler parseTargets routeApi (promoteHost wireApiV1X) = Outcome.proxied out upstream ∧
      "a".toList ∈ out.Header (CanonicalMIMEHeaderKey "X-Tag".toList) :=
  ⟨_, rfl, urlHandler_injects_route_headers parseTargets routeApi (promoteHost wireApiV1X) _
    upstream "X-Tag".toList "a".toList rfl (by decide) (by decide)⟩

/-- C4 at the request `GET /api/v1/x` with `Host: edge` as the server delivers
it (Host promoted out of the header map): the request handed to the proxy
carries `X-Forwarded-Host` with the empty value, not `edge`; its Host is the
target's host `u:9`. -/
theorem x_forwarded_host_empty_for_host_edge :
    (promoteHost wireApiV1X).Host = "edge".toList ∧
    ∃ out : Request,
      urlHandler parseTargets routeApi (promoteHost wireApiV1X) = Outcome.proxied out upstream ∧
      out.Header "X-Forwarded-Host".toList = [[]] ∧
      out.Header "X-Tag".toList = ["a".toList] ∧
      out.Host = "u:9".toList ∧ out.URL.Path = "/v1/x".toList :=
  ⟨by decide, _, rfl, by decide, by decide, by decide, by decide⟩

/-- Whatever `Host` a request came with, once the server has promoted it out
of the header map a route without injected headers forwards the request with
the empty `X-Forwarded-Host`. -/
theorem x_forwarded_host_of_promoted_request (parse : GoString → Option URL) (route : Route)
    (raw out : Request) (T : URL) (hroute : route.Headers = [])
    (h : urlHandler parse route (promoteHost raw) = Outcome.proxied out T) :
    out.Header "X-Forwarded-Host".toList = [[]] := by
  obtain ⟨_, _, _, hh, _⟩ := urlHandler_proxied parse route (promoteHost raw) out T h
  have hget : Header.Get (promoteHost raw).Header "Host".toList = [] := by
    show Header.Get (Header.Del raw.Header "Host".toList) "Host".toList = []
    unfold Header.Get Header.Del
    rw [canonical_host, if_pos rfl]
  rw [hh, hroute]
  show Header.Set (promoteHost raw).Header "X-Forwarded-Host".toList
    (Header.Get (promoteHost raw).Header "Host".toList) "X-Forwarded-Host".toList = [[]]
  rw [hget]
  unfold Header.Set
  rw [canonical_xfh, if_pos rfl]

/-- C6 at the request `GET /api?x=1` on the route `/api`: the URL path is `/api`,
it starts with the route's path, its first segment is the route's first
segment, the router dispatches to the route, and the handler answers 404. -/
theorem guard_rejects_route_path_with_query :
    originFormPath requestApiQuery.RequestURI = requestApiQuery.URL.Path ∧
    routeApi.Path <+: requestApiQuery.URL.Path ∧
    firstSegment requestApiQuery.URL.Path = firstSegment routeApi.Path ∧
    routerMatch noCustomPatterns (routeTable (configOf [routeApi])) requestApiQuery.URL.Path
      = some (Handler.url routeApi) ∧
    ServeHTTP noCustomPatterns parseTargets (configOf [routeApi]) requestApiQuery
      = Outcome.notFound requestApiQuery :=
  ⟨by decide, by decide, by decide, rfl, rfl⟩

/-- C10 fails as stated: the route `/a/b` forwards `GET /a/bc`, and the
forwarded path is `c`, neither empty nor beginning with `/`. -/
theorem forwarded_path_without_leading_slash :
    ∃ out : Request,
      urlHandler parseTargets routeAB requestABC = Outcome.proxied out upstream1 ∧
      routeAB.Path <+: requestABC.URL.Path ∧
      out.URL.Path = "c".toList ∧
      ¬ (out.URL.Path = [] ∨ ∃ t, out.URL.Path = '/' :: t) := by
  refine ⟨_, rfl, by decide, rfl, ?_⟩
  rintro (h | ⟨t, h⟩)
  · exact absurd h (by decide)
  · exact absurd (List.cons.inj h).1 (by decide)

theorem takeWhile_append_eq_self (seg rest : GoString) (hseg : '/' ∉ seg)
    (h : (seg ++ rest).takeWhile (fun c => c ≠ '/') = seg) :
    rest = [] ∨ ∃ t, rest = '/' :: t := by
  induction seg with
  | nil =>
    cases rest with
    | nil => exact Or.inl rfl
    | cons c cs =>
      right
      by_cases hc : c = '/'
      · exact ⟨cs, by rw [hc]⟩
      · simp [List.takeWhile, hc] at h
  | cons a as ih =>
    have ha : a ≠ '/' := fun e => hseg (by simp [e])
    have has : '/' ∉ as := fun e => hseg (List.mem_cons_of_mem _ e)
    apply ih has
    simpa [List.takeWhile, ha] using h

/-- C10, amended: for a URL-type route whose path is a single segment (`/`
followed by text without `/`) and a request whose URI starts with its URL path
and whose URL path starts with the route's path, if the route forwards the
request then the forwarded path is empty or begins with `/`. -/
theorem forwarded_path_of_single_segment_route
    (parse : GoString → Option URL) (route : Route) (req out : Request) (T : URL)
    (seg : GoString)
    (hP : route.Path = '/' :: seg) (hseg : '/' ∉ seg)
    (huri : req.URL.Path <+: req.RequestURI)
    (hpre : route.Path <+: req.URL.Path)
    (h : urlHandler parse route req = Outcome.proxied out T) :
    out.URL.Path = [] ∨ ∃ t, out.URL.Path = '/' :: t := by
  obtain ⟨_, ⟨a, ha, hb⟩, hsl, _⟩ := urlHandler_proxied parse route req out T h
  obtain ⟨s, hs⟩ := hpre
  obtain ⟨q, hq⟩ := huri
  have hout : out.URL.Path = s := by
    rw [← hs, slice_suffix] at hsl
    exact (Option.some.inj hsl).symm
  rw [hP, firstSegment_slash, List.takeWhile_eq_self_iff.mpr (by
    intro c hc
    simpa using fun e : c = '/' => hseg (e ▸ hc))] at hb
  rw [← hq, ← hs, hP] at ha
  simp only [List.cons_append, firstSegment_slash, List.append_assoc] at ha
  rw [← hb] at ha
  rcases takeWhile_append_eq_self seg (s ++ q) hseg (Option.some.inj ha) with h0 | ⟨t, ht⟩
  · left
    rw [hout]
    exact (List.append_eq_nil.mp h0).1
  · rw [hout]
    cases s with
    | nil => exact Or.inl rfl
    | cons c cs =>
      right
      simp only [List.cons_append, List.cons.injEq] at ht
      exact ⟨cs, by rw [ht.1]⟩

/-- C10, amended, at `GET /api/v1/x` on the route `/api`. -/
theorem forwarded_path_of_single_segment_route_witness :
    ∃ out : Request,
      urlHandler parseTargets routeApi (promoteHost wireApiV1X) = Outcome.proxied out upstream ∧
      (out.URL.Path = [] ∨ ∃ t, out.URL.Path = '/' :: t) :=
  ⟨_, rfl, forwarded_path_of_single_segment_route parseTargets routeApi
    (promoteHost wireApiV1X) _ upstream "api".toList rfl (by decide) (by decide) (by decide) rfl⟩

/-! ## Environment interpolation -/

theorem replaceFrom_zero_cons (old new : GoString) (c : Char) (cs : GoString) :
    replaceFrom old new 0 (c :: cs) =
      if old <+: c :: cs then new ++ replaceFrom old new (old.length - 1) cs
      else c :: replaceFrom old new 0 cs := rfl

theorem replaceFrom_skip (old new xs rest : GoString) :
    replaceFrom old new xs.length (xs ++ rest) = replaceFrom old new 0 rest := by
  induction xs with
  | nil => rfl
  | cons x xs ih => simpa [replaceFrom] using ih

theorem replaceFrom_text (o new s rest : GoString) (hs : '$' ∉ s) :
    replaceFrom ('$' :: o) new 0 (s ++ rest) = s ++ replaceFrom ('$' :: o) new 0 rest := by
  induction s with
  | nil => rfl
  | cons c cs ih =>
    have hc : c ≠ '$' := fun e => hs (by simp [e])
    have hcs : '$' ∉ cs := fun e => hs (List.mem_cons_of_mem _ e)
    have hno : ¬ ('$' :: o) <+: (c :: (cs ++ rest)) := by
      rw [List.cons_prefix_cons]
      exact fun h => hc h.1.symm
    rw [List.cons_append, replaceFrom_zero_cons, if_neg hno, ih hcs, List.cons_append]

theorem eq_of_leading_dollar (a b x y : GoString) (ha : '$' ∉ a) (hb : '$' ∉ b)
    (h : (a ++ '$' :: x) <+: (b ++ '$' :: y)) : a = b := by
  induction a generalizing b with
  | nil =>
    cases b with
    | nil => rfl
    | cons d ds =>
      rw [List.nil_append, List.cons_append, List.cons_prefix_cons] at h
      exact absurd (by rw [← h.1]; exact List.mem_cons_self _ _) hb
  | cons c cs ih =>
    cases b with
    | nil =>
      rw [List.nil_append, List.cons_append, List.cons_prefix_cons] at h
      exact absurd (by rw [h.1]; exact List.mem_cons_self _ _) ha
    | cons d ds =>
      rw [List.cons_append, List.cons_append, List.cons_prefix_cons] at h
      rw [h.1, ih ds (fun e => ha (List.mem_cons_of_mem _ e))
        (fun e => hb (List.mem_cons_of_mem _ e)) h.2]

theorem render_text (s : GoString) (ps : List Piece) :
    render (Piece.text s :: ps) = s ++ render ps := rfl

theorem render_placeholder (k : GoString) (ps : List Piece) :
    render (Piece.placeholder k :: ps) = '$' :: (k ++ '$' :: render ps) := by
  simp [render, Piece.render]

theorem hasSeparator_not_key (keys : List GoString) (k : GoString) (hk : k ∈ keys) :
    hasSeparator keys k = false := by
  rw [Bool.eq_false_iff]
  intro h
  simp only [hasSeparator, List.any_eq_true, List.all_eq_true, decide_eq_true_eq] at h
  obtain ⟨c, hc, hall⟩ := h
  exact hall k hk hc

theorem no_match_after_placeholder (keys : List GoString) (k : GoString) (hk : k ∈ keys)
    (hkd : '$' ∉ k) (ps : List Piece) (acc : GoString) (hacc : '$' ∉ acc)
    (hbody : ∀ p ∈ ps, '$' ∉ p.body)
    (hsep : separated keys (hasSeparator keys acc) ps = true) :
    ¬ (k ++ ['$']) <+: (acc ++ render ps) := by
  induction ps generalizing acc with
  | nil =>
    intro h
    have hsub := h.subset
    rw [render, List.append_nil] at hsub
    exact hacc (hsub (by simp))
  | cons p ps ih =>
    cases p with
    | text s =>
      have hs : '$' ∉ s := hbody (Piece.text s) (List.mem_cons_self _ _)
      have hsep2 : separated keys (hasSeparator keys (acc ++ s)) ps = true := by
        rw [separated] at hsep
        rw [hasSeparator, List.any_append]
        exact hsep
      have := ih (acc ++ s) (by simp [hacc, hs])
        (fun q hq => hbody q (List.mem_cons_of_mem _ hq)) hsep2
      rw [render_text, ← List.append_assoc]
      exact this
    | placeholder k1 =>
      intro h
      rw [separated, Bool.and_eq_true] at hsep
      have hka : k = acc := by
        rw [render_placeholder] at h
        exact eq_of_leading_dollar k acc [] (k1 ++ '$' :: render ps) hkd hacc h
      rw [← hka, hasSeparator_not_key keys k hk] at hsep
      exact absurd hsep.1 (by simp)

theorem replaceFrom_render (keys : List GoString) (k new : GoString) (hk : k ∈ keys)
    (hkd : '$' ∉ k) (ps : List Piece) (ok : Bool)
    (hbody : ∀ p ∈ ps, '$' ∉ p.body) (hsep : separated keys ok ps = true) :
    replaceFrom ('$' :: (k ++ ['$'])) new 0 (render ps) = render (ps.map (fillKey k new)) := by
  induction ps generalizing ok with
  | nil => rfl
  | cons p ps ih =>
    have hrest : ∀ q ∈ ps, '$' ∉ q.body := fun q hq => hbody q (List.mem_cons_of_mem _ hq)
    cases p with
    | text s =>
      have hs : '$' ∉ s := hbody (Piece.text s) (List.mem_cons_self _ _)
      rw [separated] at hsep
      rw [List.map_cons, fillKey, render_text, render_text, replaceFrom_text _ _ _ _ hs,
        ih _ hrest hsep]
    | placeholder k1 =>
      have hk1 : '$' ∉ k1 := hbody (Piece.placeholder k1) (List.mem_cons_self _ _)
      rw [separated, Bool.and_eq_true] at hsep
      have hih := ih false hrest hsep.2
      by_cases hkk : k1 = k
      · subst hkk
        have hm : ('$' :: (k1 ++ ['$'])) <+: ('$' :: (k1 ++ '$' :: render ps)) := by
          rw [List.cons_prefix_cons]
          exact ⟨rfl, ⟨render ps, by simp⟩⟩
        have hlen : ('$' :: (k1 ++ ['$'])).length - 1 = (k1 ++ ['$']).length := by simp
        have hsplit : k1 ++ '$' :: render ps = (k1 ++ ['$']) ++ render ps := by simp
        rw [List.map_cons, fillKey, if_pos rfl, render_text, render_placeholder,
          replaceFrom_zero_cons, if_pos hm, hlen, hsplit, replaceFrom_skip, hih]
      · have hno : ¬ ('$' :: (k ++ ['$'])) <+: ('$' :: (k1 ++ '$' :: render ps)) := by
          rw [List.cons_prefix_cons]
          rintro ⟨_, h⟩
          exact hkk (eq_of_leading_dollar k k1 [] (render ps) hkd hk1 h).symm
        have hno2 : ¬ ('$' :: (k ++ ['$'])) <+: ('$' :: render ps) := by
          rw [List.cons_prefix_cons]
          rintro ⟨_, h⟩
          have hsep0 : separated keys (hasSeparator keys []) ps = true := hsep.2
          exact no_match_after_placeholder keys k hk hkd ps [] (by simp) hrest hsep0
            (by rw [List.nil_append]; exact h)
        rw [List.map_cons, fillKey, if_neg hkk, render_placeholder, render_placeholder,
          replaceFrom_zero_cons, if_neg hno, replaceFrom_text _ _ _ _ hk1,
          replaceFrom_zero_cons, if_neg hno2, hih]

theorem separated_mono (keys : List GoString) (ps : List Piece) (ok b : Bool)
    (h : separated keys ok ps = true) : separated keys (ok || b) ps = true := by
  induction ps generalizing ok b with
  | nil => rfl
  | cons p ps ih =>
    cases p with
    | text s =>
      rw [separated] at h ⊢
      have := ih _ b h
      rwa [Bool.or_right_comm] at this
    | placeholder k1 =>
      rw [separated, Bool.and_eq_true] at h ⊢
      exact ⟨by simp [h.1], h.2⟩

theorem separated_fillKey (keys : List GoString) (k new : GoString) (ps : List Piece)
    (ok : Bool) (h : separated keys ok ps = true) :
    separated keys ok (ps.map (fillKey k new)) = true := by
  induction ps generalizing ok with
  | nil => rfl
  | cons p ps ih =>
    cases p with
    | text s =>
      rw [separated] at h
      rw [List.map_cons, fillKey, separated]
      exact ih _ h
    | placeholder k1 =>
      rw [separated, Bool.and_eq_true] at h
      by_cases hkk : k1 = k
      · rw [List.map_cons, fillKey, if_pos hkk, separated, h.1, Bool.true_or]
        have := separated_mono keys _ false true (ih false h.2)
        simpa using this
      · rw [List.map_cons, fillKey, if_neg hkk, separated, Bool.and_eq_true]
        exact ⟨h.1, ih false h.2⟩

theorem body_fillKey (k new : GoString) (ps : List Piece) (hnew : '$' ∉ new)
    (h : ∀ p ∈ ps, '$' ∉ p.body) : ∀ p ∈ ps.map (fillKey k new), '$' ∉ p.body := by
  intro p hp
  obtain ⟨q, hq, rfl⟩ := List.mem_map.mp hp
  cases q with
  | text s => exact h _ hq
  | placeholder k1 =>
    by_cases hkk : k1 = k
    · rw [fillKey, if_pos hkk]
      exact hnew
    · rw [fillKey, if_neg hkk]
      exact h _ hq

theorem fill_cons (environ rest : List (GoString × GoString)) (k v : GoString) (p : Piece) :
    fill environ rest (fillKey k (Getenv environ v) p) = fill environ ((k, v) :: rest) p := by
  cases p with
  | text s => rfl
  | placeholder k1 =>
    by_cases hkk : k1 = k
    · simp [fillKey, fill, lookupKey, hkk]
    · simp [fillKey, fill, lookupKey, hkk]

theorem fill_nil (environ : List (GoString × GoString)) (p : Piece) :
    fill environ [] p = p := by
  cases p <;> rfl

theorem interpolate_render (environ : List (GoString × GoString)) (keys : List GoString)
    (l : List (GoString × GoString)) (ps : List Piece)
    (hl : ∀ kv ∈ l, kv.1 ∈ keys ∧ '$' ∉ kv.1 ∧ '$' ∉ Getenv environ kv.2)
    (hbody : ∀ p ∈ ps, '$' ∉ p.body) (hsep : separated keys true ps = true) :
    interpolate environ l (render ps) = render (ps.map (fill environ l)) := by
  induction l generalizing ps with
  | nil =>
    have : ps.map (fill environ []) = ps := by
      rw [List.map_congr_left (fun p _ => fill_nil environ p), List.map_id']
    rw [this]
    rfl
  | cons kv rest ih =>
    obtain ⟨k, v⟩ := kv
    obtain ⟨hk, hkd, hv⟩ := hl (k, v) (List.mem_cons_self _ _)
    have hstep : Replace (render ps) ('$' :: (k ++ ['$'])) (Getenv environ v)
        = render (ps.map (fillKey k (Getenv environ v))) := by
      unfold Replace
      rw [if_neg (by simp)]
      exact replaceFrom_render keys k _ hk hkd ps true hbody hsep
    have hfold : interpolate environ ((k, v) :: rest) (render ps)
        = interpolate environ rest
            (Replace (render ps) ('$' :: (k ++ ['$'])) (Getenv environ v)) := rfl
    rw [hfold, hstep, ih _ (fun x hx => hl x (List.mem_cons_of_mem _ hx))
      (body_fillKey k _ ps hv hbody) (separated_fillKey keys k _ ps true hsep), List.map_map]
    congr 1
    exact List.map_congr_left (fun p _ => fill_cons environ rest k v p)

theorem lookupKey_of_mem (l : List (GoString × GoString)) (k v : GoString)
    (hnd : (l.map Prod.fst).Nodup) (hmem : (k, v) ∈ l) : lookupKey l k = some v := by
  induction l with
  | nil => cases hmem
  | cons kv rest ih =>
    obtain ⟨k1, v1⟩ := kv
    rw [List.map_cons, List.nodup_cons] at hnd
    rcases List.mem_cons.mp hmem with heq | hin
    · cases heq
      simp [lookupKey]
    · have hne : k ≠ k1 := by
        rintro rfl
        exact hnd.1 (List.mem_map.mpr ⟨(k, v), hin, rfl⟩)
      simp only [lookupKey, if_neg hne]
      exact ih hnd.2 hin

theorem mem_of_lookupKey (l : List (GoString × GoString)) (k v : GoString)
    (h : lookupKey l k = some v) : (k, v) ∈ l := by
  induction l with
  | nil => cases h
  | cons kv rest ih =>
    obtain ⟨k1, v1⟩ := kv
    unfold lookupKey at h
    split at h
    · rename_i heq
      cases h
      rw [heq]
      exact List.mem_cons_self _ _
    · exact List.mem_cons_of_mem _ (ih h)

theorem lookupKey_perm (l1 l2 : List (GoString × GoString)) (hperm : l1.Perm l2)
    (hnd : (l2.map Prod.fst).Nodup) (k : GoString) : lookupKey l1 k = lookupKey l2 k := by
  have hnd1 : (l1.map Prod.fst).Nodup := (hperm.map Prod.fst).nodup_iff.mpr hnd
  cases h1 : lookupKey l1 k with
  | some v =>
    exact (lookupKey_of_mem l2 k v hnd (hperm.subset (mem_of_lookupKey l1 k v h1))).symm
  | none =>
    cases h2 : lookupKey l2 k with
    | none => rfl
    | some v =>
      have := lookupKey_of_mem l1 k v hnd1 (hperm.symm.subset (mem_of_lookupKey l2 k v h2))
      rw [h1] at this
      cases this

/-- C8, amended: when the mapping's keys are distinct, neither a key nor a
substituted value holds a `$`, and the config text is made of `$`-free literal
text and placeholders `$K$` with `$`-free K of which any two have between them
a character that occurs in no key, then in whatever order the mapping's entries
are processed the final text is the original one with each placeholder whose K
is mapped to VARNAME replaced by the current value of VARNAME (empty when
unset), and nothing else changed. -/
theorem interpolate_separated_placeholders
    (environ env order : List (GoString × GoString)) (pieces : List Piece)
    (hnodup : (env.map Prod.fst).Nodup)
    (hkeys : ∀ kv ∈ env, '$' ∉ kv.1)
    (hvals : ∀ kv ∈ env, '$' ∉ Getenv environ kv.2)
    (hbody : ∀ p ∈ pieces, '$' ∉ p.body)
    (hsep : separated (env.map Prod.fst) true pieces = true)
    (horder : order.Perm env) :
    interpolate environ order (render pieces) = render (pieces.map (fill environ env)) := by
  rw [interpolate_render environ (env.map Prod.fst) order pieces
    (fun kv hkv => ⟨List.mem_map.mpr ⟨kv, horder.subset hkv, rfl⟩,
      hkeys kv (horder.subset hkv), hvals kv (horder.subset hkv)⟩) hbody hsep]
  congr 1
  apply List.map_congr_left
  intro p _
  cases p with
  | text s => rfl
  | placeholder k => simp only [fill, lookupKey_perm order env horder hnodup k]

/-- C8, amended, at the text `"port":"$P$","endPoint":"$MC$"` with `PORT`
unset, the entries processed in reverse. -/
theorem interpolate_separated_placeholders_witness :
    interpolate environCache envCache.reverse
        "\"port\":\"$P$\",\"endPoint\":\"$MC$\"".toList
      = "\"port\":\"\",\"endPoint\":\"10.0.0.1:11211\"".toList :=
  interpolate_separated_placeholders environCache envCache envCache.reverse piecesCache
    (by decide) (by decide) (by decide) (by decide) (by decide)
    (List.reverse_perm envCache)

/-- C8 fails as stated: with `VA` holding `$B$` the text `$A$` ends as `x` when
A is processed before B and as `$B$` when after; and in `k=$A$B$` the
placeholder that is processed second is never replaced. -/
theorem interpolate_depends_on_order :
    interpolate environNested [("A".toList, "VA".toList), ("B".toList, "VB".toList)]
        "$A$".toList = "x".toList ∧
    interpolate environNested [("B".toList, "VB".toList), ("A".toList, "VA".toList)]
        "$A$".toList = "$B$".toList ∧
    Getenv environNested "VA".toList = "$B$".toList ∧
    interpolate [] [("A".toList, "VA".toList), ("B".toList, "VB".toList)]
        "k=$A$B$".toList = "k=B$".toList ∧
    interpolate [] [("B".toList, "VB".toList), ("A".toList, "VA".toList)]
        "k=$A$B$".toList = "k=$A".toList := by
  decide

end Goroute
